import Mathlib

/-!
Shallow embedding of the `ptool` photo-report pipeline
(`src/ptool/collectors.py`, `src/ptool/workers.py`, `src/ptool/sieves.py`,
`src/ptool/__main__.py`, and the earlier single-file revision `ptool.py`).

The pipeline walks a directory tree, filters paths by an exclusion list and a
sieve predicate, runs one pure worker per file, and folds the stream of
per-file results (in completion order) into one rendered text report.

Modelling conventions:
* a Python `dict` is an insertion-ordered association list `List (κ × β)`;
  `updD` reproduces `d[k] = v` / `setdefault`-style updates (update in place
  keeps the key's position, a fresh key is appended at the end);
* the stream of completed task results is a `List` in arrival order; an
  exception raised inside a task is an `Except.error` consumed by `drainE`;
* EXIF tag reads `e.get(Tag)` are `Option String` parameters of the workers,
  since the extractor is an external library;
* Python `f"{x: >n}"` / `f"{x:<n}"` paddings are `padl` / `padr`,
  `sorted` is `pySorted` with the corresponding boolean key order.
-/

namespace Ptool

/-- Insertion-ordered dictionary update, as on a Python `dict`: if the key is
present its value is rewritten in place, otherwise the pair is appended. -/
def updD {κ β : Type} [DecidableEq κ] (k : κ) (f : Option β → β) :
    List (κ × β) → List (κ × β)
  | [] => [(k, f none)]
  | (a, b) :: t => if a = k then (a, f (some b)) :: t else (a, b) :: updD k f t

/-- Dictionary lookup on the association-list model of a Python `dict`. -/
def lookupD {κ β : Type} [DecidableEq κ] (k : κ) : List (κ × β) → Option β
  | [] => none
  | (a, b) :: t => if a = k then some b else lookupD k t

/-- Python format `f"{x: >n}"`: right-align `x` in a field of width `n`. -/
def padl (n : Nat) (s : String) : String :=
  String.mk (List.replicate (n - s.length) ' ') ++ s

/-- Python format `f"{x:<n}"`: left-align `x` in a field of width `n`. -/
def padr (n : Nat) (s : String) : String :=
  s ++ String.mk (List.replicate (n - s.length) ' ')

/-- Lexicographic code-point order on character lists, as Python compares
`str` values. -/
def strLtChars : List Char → List Char → Bool
  | [], [] => false
  | [], _ :: _ => true
  | _ :: _, [] => false
  | a :: as, b :: bs =>
    if a.toNat < b.toNat then true
    else if a.toNat = b.toNat then strLtChars as bs
    else false

/-- Boolean `a ≤ b` on strings under Python's lexicographic order. -/
def pyStrLe (a b : String) : Bool := !(strLtChars b.toList a.toList)

/-- Does `needle` occur at the head of `hay`? -/
def startsList (needle hay : List Char) : Bool :=
  match needle, hay with
  | [], _ => true
  | _ :: _, [] => false
  | a :: as, b :: bs => a = b && startsList as bs

/-- Does `needle` occur contiguously anywhere in `hay`? -/
def hasInfixChars (needle : List Char) : List Char → Bool
  | [] => needle.isEmpty
  | b :: bs => startsList needle (b :: bs) || hasInfixChars needle bs

/-- Python substring test `x in ff` on strings. -/
def pyIn (x ff : String) : Bool := hasInfixChars x.toList ff.toList

/-- Python `s.endswith(suf)`. -/
def pyEndswith (s suf : String) : Bool :=
  decide (suf.toList = s.toList.drop (s.toList.length - suf.toList.length))

/-- Stable insertion of one element into a sorted accumulator: the new,
later-arriving element lands after every element it compares `le` with. -/
def insertS {α : Type} (le : α → α → Bool) (a : α) : List α → List α
  | [] => [a]
  | b :: t => if le b a then b :: insertS le a t else a :: b :: t

/-- Python's stable `sorted(l, key=...)`, modelled as a stable insertion sort
over the boolean key order `le` (a stable sort is unique given the order, so
this matches Timsort's output). -/
def pySorted {α : Type} (le : α → α → Bool) (l : List α) : List α :=
  l.foldl (fun acc x => insertS le x acc) []

/-- Python truthiness of `e.get(Tag)` for a string-valued EXIF tag: `None`
(absent tag) and the empty string are falsy, every other string is truthy. -/
def pyFalsy : Option String → Bool
  | none => true
  | some s => s = ""

/-- One-sided `strip`: drop the characters satisfying `p` from the front. -/
def dropEnd (p : Char → Bool) (l : List Char) : List Char :=
  (l.reverse.dropWhile p).reverse

/-- Python `s.strip(chars)` on a character list: remove the characters
satisfying `p` from both ends. -/
def stripChars (p : Char → Bool) (l : List Char) : List Char :=
  dropEnd p (l.dropWhile p)

/-- Python `str.strip()` whitespace class (the ASCII part, which covers every
string appearing in this development). -/
def pyIsSpace (c : Char) : Bool :=
  c = ' ' || c = '\t' || c = '\n' || c = '\x0d' || c = '\x0b' || c = '\x0c'

/-- The NUL character class of `strip("\x00")`. -/
def isNulChar (c : Char) : Bool := c = '\x00'

/-- Python `v.strip().strip("\x00")` as applied to Make/Model tag values in
`workers.cams`. -/
def stripWsNul (s : String) : String :=
  String.mk (stripChars isNulChar (stripChars pyIsSpace s.toList))

/-- Helper for Python `str.split()` with no arguments: split on whitespace
runs and drop empty words; `cur` holds the current word reversed. -/
def splitWsAux : List Char → List Char → List (List Char)
  | [], cur => if cur.isEmpty then [] else [cur.reverse]
  | c :: rest, cur =>
    if pyIsSpace c then
      if cur.isEmpty then splitWsAux rest []
      else cur.reverse :: splitWsAux rest []
    else splitWsAux rest (c :: cur)

/-- Python `v.split()`: the whitespace-separated words of `v`. -/
def pySplitWs (s : String) : List String :=
  (splitWsAux s.toList []).map String.mk

namespace collectors

/-- `collectors.right`: keep a string under `n` characters, keeping the tail. -/
def right (n : Nat) (x : String) : String :=
  if x.length < n then x
  else "…" ++ String.mk (x.toList.drop (x.length - (n - 1)))

/-- `collectors.left`: keep a string under `n` characters, keeping the head. -/
def left (n : Nat) (x : String) : String :=
  if x.length < n then x else String.mk (x.toList.take (n - 1)) ++ "…"

/-- One step of `collectors.two_level`'s accumulation loop:
`x = stat.setdefault(maker, {}); x[model] = x.setdefault(model, 0) + 1`. -/
def twoLevelStep (stat : List (String × List (String × Nat)))
    (r : String × String) : List (String × List (String × Nat)) :=
  updD r.1 (fun o => updD r.2 (fun y => y.getD 0 + 1) (o.getD [])) stat

/-- The maker → model → count histogram built by `collectors.two_level` from
the arrival-ordered result stream. -/
def twoLevelStat (l : List (String × String)) :
    List (String × List (String × Nat)) :=
  l.foldl twoLevelStep []

/-- `collectors.two_level`: render the nested histogram, makers sorted, then
models sorted, one fixed-width line per (maker, model) cell, each ending in a
newline. -/
def two_level (l : List (String × String)) : String :=
  let stat := twoLevelStat l
  String.join ((pySorted pyStrLe (stat.map Prod.fst)).map (fun maker =>
    let inner := (lookupD maker stat).getD []
    String.join ((pySorted pyStrLe (inner.map Prod.fst)).map (fun model =>
      padl 25 maker ++ " | " ++ padl 40 model ++ " | " ++
        padr 5 (toString ((lookupD model inner).getD 0)) ++ "\n"))))

/-- The lines retained by `collectors.simple_list`: the non-empty results, in
arrival order. -/
def simpleListLines (l : List String) : List String :=
  l.filter (fun f => f ≠ "")

/-- `collectors.simple_list`: join the non-empty results, in arrival order,
with newlines. -/
def simple_list (l : List String) : String :=
  String.intercalate "\n" (simpleListLines l)

/-- The path → text dictionary built by `collectors.key_value`
(`res[f] = s` for results with a truthy first component). -/
def keyValueRes (l : List (String × String)) : List (String × String) :=
  l.foldl (fun res r => if r.1 ≠ "" then updD r.1 (fun _ => r.2) res else res) []

/-- `collectors.key_value`: render the path → text dictionary in insertion
order, paths right-shortened to 60 characters, texts whitespace-collapsed and
left-shortened to 30. -/
def key_value (l : List (String × String)) : String :=
  String.intercalate "\n" ((keyValueRes l).map (fun kv =>
    padl 60 (right 60 kv.1) ++ " | " ++
      padr 30 (left 30 (String.intercalate " " (pySplitWs kv.2)))))

/-- One step of `collectors.nogpsdir`'s accumulation:
`x = res.setdefault(dirname, {True: 0, False: 0}); x[nogps] += 1`; the pair
holds (count with `nogps = True`, count with `nogps = False`). -/
def nogpsdirStep (res : List (String × (Nat × Nat))) (r : String × Bool) :
    List (String × (Nat × Nat)) :=
  updD r.1 (fun o =>
    let x := o.getD (0, 0)
    if r.2 then (x.1 + 1, x.2) else (x.1, x.2 + 1)) res

/-- The per-directory {no-GPS, has-GPS} counts built by `collectors.nogpsdir`
from the arrival-ordered (dirname, nogps) stream. -/
def nogpsdirRes (l : List (String × Bool)) : List (String × (Nat × Nat)) :=
  l.foldl nogpsdirStep []

/-- The items `collectors.nogpsdir` renders: the per-directory counts sorted
ascending by the no-GPS count, keeping only directories with at least one
no-GPS file. -/
def nogpsdirItems (l : List (String × Bool)) : List (String × (Nat × Nat)) :=
  (pySorted (fun a b => decide (a.2.1 ≤ b.2.1)) (nogpsdirRes l)).filter
    (fun kv => decide (0 < kv.2.1))

/-- `collectors.nogpsdir`: render one `nogps | hasgps | dirname` line per
retained directory. -/
def nogpsdir (l : List (String × Bool)) : String :=
  String.intercalate "\n" ((nogpsdirItems l).map (fun kv =>
    padl 3 (toString kv.2.1) ++ " | " ++ padl 3 (toString kv.2.2) ++ " | " ++
      kv.1))

/-- The value → frequency dictionary built by `collectors.stats`. -/
def statsRes (l : List String) : List (String × Nat) :=
  l.foldl (fun res v => updD v (fun o => o.getD 0 + 1) res) []

/-- The (value, count) items of `collectors.stats` sorted ascending by count
(Python's stable `sorted(res.items(), key=lambda x: x[1])`). -/
def statsSorted (l : List String) : List (String × Nat) :=
  pySorted (fun a b => decide (a.2 ≤ b.2)) (statsRes l)

/-- The rendered lines of `collectors.stats`, in sorted order. -/
def statsLines (l : List String) : List String :=
  (statsSorted l).map (fun kv => padl 6 (toString kv.2) ++ " | " ++ kv.1)

/-- `collectors.stats`: frequency count of a scalar result, one line per
distinct value, sorted ascending by count. -/
def stats (l : List String) : String :=
  String.intercalate "\n" (statsLines l)

end collectors

/-- A `UserComment` tag value as handed over by the EXIF library: either an
already-decoded string or a raw byte sequence. -/
inductive PyComment where
  | str (s : String)
  | bytes (b : List Nat)
deriving DecidableEq

namespace workers

/-- The four 8-byte code-specification markers of `usercomment_encoding`
(Exif 3.2 §4.6.5): `ASCII\0\0\0`, `UNICODE\0`, `JIS\0\0\0\0\0`, eight NULs. -/
def usercomment_encoding_keys : List (List Nat) :=
  [[0x41, 0x53, 0x43, 0x49, 0x49, 0, 0, 0],
   [0x55, 0x4e, 0x49, 0x43, 0x4f, 0x44, 0x45, 0],
   [0x4a, 0x49, 0x53, 0, 0, 0, 0, 0],
   [0, 0, 0, 0, 0, 0, 0, 0]]

/-- `bytes.decode()` restricted to ASCII payloads (on which UTF-8 decoding is
the identity on code points); the general worker is parametric in the decoder
since the Unicode flavour is unspecified. -/
def asciiDecode (b : List Nat) : String :=
  String.mk (b.map Char.ofNat)

/-- `workers.cams`:
`e.get(Make, "<UNDEF>").strip().strip("\x00")` and the same for Model; the
two `Option String` arguments stand for the presence and value of the Make
and Model EXIF tags. -/
def cams (make model : Option String) : String × String :=
  (stripWsNul (make.getD "<UNDEF>"), stripWsNul (model.getD "<UNDEF>"))

/-- `workers.nocam`: return the path when `e.get(Make)` or `e.get(Model)` is
falsy (absent tag or empty string), the empty string otherwise. -/
def nocam (f : String) (make model : Option String) : String :=
  if pyFalsy make || pyFalsy model then f else ""

/-- `workers.usercomment` on a file whose `UserComment` tag value is
`comment`; `decode` stands for `bytes.decode()`. A string value is passed
through; a byte value whose first 8 bytes are a recognized marker is decoded
from byte 8 on; otherwise all bytes are decoded. -/
def usercomment (f : String) (comment : Option PyComment)
    (decode : List Nat → String) : String × String :=
  match comment with
  | none => ("", "")
  | some (.str s) => (f, s)
  | some (.bytes b) =>
    if b.take 8 ∈ usercomment_encoding_keys then (f, decode (b.drop 8))
    else (f, decode b)

/-- Python `f.rsplit(sep, maxsplit=1)` helper: split at the last occurrence
of `sep`, or report `none` when `sep` does not occur. -/
def lastSplit (sep : Char) : List Char → Option (List Char × List Char)
  | [] => none
  | x :: xs =>
    match lastSplit sep xs with
    | some (a, b) => some (x :: a, b)
    | none => if x = sep then some ([], xs) else none

/-- Python `f.rsplit(sep, maxsplit=1)`. -/
def pyRsplit1 (sep : Char) (l : List Char) : List (List Char) :=
  match lastSplit sep l with
  | some (a, b) => [a, b]
  | none => [l]

/-- `workers.file_ext`: `f.rsplit(".", maxsplit=1)[1]`; `none` models the
`IndexError` raised when the split has no element 1. -/
def file_ext (f : String) : Option String :=
  ((pyRsplit1 '.' f.toList).get? 1).map String.mk

end workers

namespace sieve

/-- `sieves.img`: accept `.jpg` always and `.heic` when HEIF support loaded
(`has_heif` is environment-dependent, so it is a parameter). -/
def img (hasHeif : Bool) (f : String) : Bool :=
  pyEndswith f ".jpg" || (pyEndswith f ".heic" && hasHeif)

/-- The sieve of the `ftypes` mode: `lambda _: True`. -/
def ftypes (_ : String) : Bool := true

end sieve

/-- Total of the per-model counts under one maker entry of the two-level
histogram. -/
def innerTotal (d : List (String × Nat)) : Nat := (d.map Prod.snd).sum

/-- Grand total of all (maker, model) cell counts of the two-level
histogram. -/
def totalCount (s : List (String × List (String × Nat))) : Nat :=
  (s.map (fun kv => innerTotal kv.2)).sum

/-- The task list built by `__main__.main`'s walk loop from the enumerated
joined paths: a path containing any exclusion substring is skipped, the rest
are kept when the sieve accepts them; one task per kept path. -/
def walkerTasks (paths : List String) (exclude : List String)
    (sieveF : String → Bool) : List String :=
  paths.filter (fun ff => !(exclude.any (fun x => pyIn x ff)) && sieveF ff)

/-- The collector's `async for task in as_completed(...): r = await task`
drain loop over the arrival-ordered task outcomes: awaiting a failed task
re-raises its error, aborting the whole fold. -/
def drainE {σ α ε : Type} (step : σ → α → σ) (init : σ) :
    List (Except ε α) → Except ε σ
  | [] => .ok init
  | .error e :: _ => .error e
  | .ok a :: t => drainE step (step init a) t

/-- `__main__.main`'s `print(await collector_f(tasks))`: the report text that
reaches standard output, or `none` when the collector raised (the print never
runs, so nothing is output). -/
def mainOutput {σ α ε : Type} (step : σ → α → σ) (init : σ)
    (render : σ → String) (tasks : List (Except ε α)) : Option String :=
  match (drainE step init tasks).map render with
  | .ok r => some r
  | .error _ => none

/-! Dictionary lemmas: how `lookupD` and the key list behave under `updD`. -/

theorem lookupD_updD {κ β : Type} [DecidableEq κ] (k a : κ) (f : Option β → β)
    (d : List (κ × β)) :
    lookupD a (updD k f d) =
      if a = k then some (f (lookupD k d)) else lookupD a d := by
  induction d with
  | nil =>
    by_cases h : a = k
    · simp [updD, lookupD, h]
    · have hka : ¬k = a := fun hh => h hh.symm
      simp [updD, lookupD, h, hka]
  | cons p t ih =>
    obtain ⟨x, y⟩ := p
    by_cases hxk : x = k
    · subst hxk
      by_cases hax : a = x
      · simp [updD, lookupD, hax]
      · have hxa : ¬x = a := fun hh => hax hh.symm
        simp [updD, lookupD, hax, hxa]
    · by_cases hax : a = x
      · subst hax
        have hak : ¬a = k := hxk
        simp [updD, lookupD, hxk, hak]
      · have hxa : ¬x = a := fun hh => hax hh.symm
        simp [updD, lookupD, hxk, hax, hxa, ih]

theorem mem_keys_updD {κ β : Type} [DecidableEq κ] (k a : κ) (f : Option β → β)
    (d : List (κ × β)) :
    a ∈ (updD k f d).map Prod.fst ↔ a = k ∨ a ∈ d.map Prod.fst := by
  induction d with
  | nil => simp [updD]
  | cons p t ih =>
    obtain ⟨x, y⟩ := p
    by_cases hxk : x = k
    · subst hxk
      simp only [updD, eq_self_iff_true, if_true, ite_true, List.map_cons,
        List.mem_cons]
      tauto
    · simp only [updD, if_neg hxk, List.map_cons, List.mem_cons, ih]
      tauto

theorem nodup_keys_updD {κ β : Type} [DecidableEq κ] (k : κ) (f : Option β → β)
    (d : List (κ × β)) (hd : (d.map Prod.fst).Nodup) :
    ((updD k f d).map Prod.fst).Nodup := by
  induction d with
  | nil => simp [updD]
  | cons p t ih =>
    obtain ⟨x, y⟩ := p
    simp only [List.map_cons, List.nodup_cons] at hd
    by_cases hxk : x = k
    · subst hxk
      simpa [updD] using hd
    · simp only [updD, if_neg hxk, List.map_cons, List.nodup_cons]
      refine ⟨?_, ih hd.2⟩
      intro hmem
      rcases (mem_keys_updD k x f t).mp hmem with h | h
      · exact hxk h
      · exact hd.1 h

theorem lookupD_isSome_iff {κ β : Type} [DecidableEq κ] (a : κ)
    (d : List (κ × β)) :
    (lookupD a d).isSome = true ↔ a ∈ d.map Prod.fst := by
  induction d with
  | nil => simp [lookupD]
  | cons p t ih =>
    obtain ⟨x, y⟩ := p
    by_cases hxa : x = a
    · subst hxa
      simp [lookupD]
    · have hax : ¬a = x := fun h => hxa h.symm
      simp only [lookupD, if_neg hxa, List.map_cons, List.mem_cons, ← ih]
      simp [hax]

theorem mem_of_lookupD_eq {κ β : Type} [DecidableEq κ] {a : κ} {b : β}
    {d : List (κ × β)} (h : lookupD a d = some b) : (a, b) ∈ d := by
  induction d with
  | nil => simp [lookupD] at h
  | cons p t ih =>
    obtain ⟨x, y⟩ := p
    by_cases hxa : x = a
    · subst hxa
      simp [lookupD] at h
      subst h
      exact List.mem_cons_self _ _
    · simp only [lookupD, if_neg hxa] at h
      exact List.mem_cons_of_mem _ (ih h)

theorem lookupD_eq_of_mem_nodup {κ β : Type} [DecidableEq κ] {a : κ} {b : β}
    {d : List (κ × β)} (h : (a, b) ∈ d) (hd : (d.map Prod.fst).Nodup) :
    lookupD a d = some b := by
  induction d with
  | nil => simp at h
  | cons p t ih =>
    obtain ⟨x, y⟩ := p
    simp only [List.map_cons, List.nodup_cons] at hd
    rcases List.mem_cons.mp h with heq | hmem
    · injection heq with h1 h2
      subst h1
      subst h2
      simp [lookupD]
    · have hxa : ¬x = a := by
        rintro rfl
        exact hd.1 (List.mem_map.mpr ⟨(x, b), hmem, rfl⟩)
      simp only [lookupD, if_neg hxa]
      exact ih hmem hd.2

theorem assoc_eq_keys_map {κ β : Type} [DecidableEq κ] (dflt : β)
    (d : List (κ × β)) (hd : (d.map Prod.fst).Nodup) :
    d = (d.map Prod.fst).map (fun k => (k, (lookupD k d).getD dflt)) := by
  induction d with
  | nil => rfl
  | cons p t ih =>
    obtain ⟨x, y⟩ := p
    simp only [List.map_cons, List.nodup_cons] at hd
    simp only [List.map_cons]
    have hx : lookupD x ((x, y) :: t) = some y := by simp [lookupD]
    rw [hx]
    congr 1
    conv_lhs => rw [ih hd.2]
    apply List.map_congr_left
    intro a ha
    have hxa : ¬x = a := fun h => hd.1 (by rw [h]; exact ha)
    simp [lookupD, hxa]

/-! Stable sort lemmas: `pySorted` permutes its input and sorts it. -/

theorem insertS_perm {α : Type} (le : α → α → Bool) (a : α) (l : List α) :
    (insertS le a l).Perm (a :: l) := by
  induction l with
  | nil => simp [insertS]
  | cons b t ih =>
    by_cases h : le b a
    · simp only [insertS, if_pos h]
      exact (ih.cons b).trans (List.Perm.swap a b t)
    · simp [insertS, h]

theorem foldl_insertS_perm {α : Type} (le : α → α → Bool) (l : List α) :
    ∀ acc : List α,
      (l.foldl (fun acc x => insertS le x acc) acc).Perm (acc ++ l) := by
  induction l with
  | nil => intro acc; simp
  | cons x t ih =>
    intro acc
    refine ((ih (insertS le x acc)).trans ?_)
    refine ((insertS_perm le x acc).append_right t).trans ?_
    exact List.perm_middle.symm

theorem pySorted_perm {α : Type} (le : α → α → Bool) (l : List α) :
    (pySorted le l).Perm l := by
  simpa using foldl_insertS_perm le l []

theorem insertS_pairwise {α : Type} {le : α → α → Bool}
    (htot : ∀ a b, le a b || le b a)
    (htr : ∀ a b c, le a b = true → le b c = true → le a c = true)
    (a : α) (l : List α) (hl : l.Pairwise (fun x y => le x y = true)) :
    (insertS le a l).Pairwise (fun x y => le x y = true) := by
  induction l with
  | nil => simp [insertS]
  | cons b t ih =>
    rcases List.pairwise_cons.mp hl with ⟨hb, ht⟩
    by_cases h : le b a = true
    · simp only [insertS, if_pos h]
      refine List.pairwise_cons.mpr ⟨?_, ih ht⟩
      intro y hy
      rcases List.mem_cons.mp ((insertS_perm le a t).mem_iff.mp hy) with rfl | hyt
      · exact h
      · exact hb y hyt
    · have hab : le a b = true := by
        have h2 := htot a b
        rw [Bool.or_eq_true] at h2
        rcases h2 with h2 | h2
        · exact h2
        · exact absurd h2 h
      simp only [insertS, if_neg h]
      refine List.pairwise_cons.mpr ⟨?_, hl⟩
      intro y hy
      rcases List.mem_cons.mp hy with rfl | hyt
      · exact hab
      · exact htr a b y hab (hb y hyt)

theorem foldl_insertS_pairwise {α : Type} {le : α → α → Bool}
    (htot : ∀ a b, le a b || le b a)
    (htr : ∀ a b c, le a b = true → le b c = true → le a c = true)
    (l : List α) :
    ∀ acc : List α, acc.Pairwise (fun x y => le x y = true) →
      (l.foldl (fun acc x => insertS le x acc) acc).Pairwise
        (fun x y => le x y = true) := by
  induction l with
  | nil => intro acc hacc; simpa using hacc
  | cons x t ih =>
    intro acc hacc
    exact ih (insertS le x acc) (insertS_pairwise htot htr x acc hacc)

theorem pySorted_pairwise {α : Type} {le : α → α → Bool}
    (htot : ∀ a b, le a b || le b a)
    (htr : ∀ a b c, le a b = true → le b c = true → le a c = true)
    (l : List α) :
    (pySorted le l).Pairwise (fun x y => le x y = true) :=
  foldl_insertS_pairwise htot htr l [] (by simp)

/-! Generic fact about folding dictionary updates over a result stream. -/

theorem nodup_keys_foldl_updD {κ β ι : Type} [DecidableEq κ] (key : ι → κ)
    (g : ι → Option β → β) (l : List ι) :
    ∀ acc : List (κ × β), (acc.map Prod.fst).Nodup →
      ((l.foldl (fun res v => updD (key v) (g v) res) acc).map
        Prod.fst).Nodup := by
  induction l with
  | nil => intro acc h; simpa using h
  | cons v t ih =>
    intro acc h
    exact ih _ (nodup_keys_updD (key v) (g v) acc h)

/-! Lemmas about the `stats` collector's accumulated dictionary. -/

theorem stats_foldl_lookupD (l : List String) :
    ∀ (acc : List (String × Nat)) (a : String),
      lookupD a
          (l.foldl (fun res v => updD v (fun o => o.getD 0 + 1) res) acc) =
        match lookupD a acc with
        | some n => some (n + l.count a)
        | none => if a ∈ l then some (l.count a) else none := by
  induction l with
  | nil =>
    intro acc a
    cases h : lookupD a acc <;> simp [h]
  | cons v t ih =>
    intro acc a
    rw [List.foldl_cons, ih, lookupD_updD]
    by_cases hav : a = v
    · subst hav
      cases h : lookupD a acc <;>
        simp [h, List.count_cons_self] <;> omega
    · cases h : lookupD a acc <;>
        simp [h, hav, List.count_cons_of_ne hav, List.mem_cons]

theorem statsRes_lookupD (l : List String) (a : String) :
    lookupD a (collectors.statsRes l) =
      if a ∈ l then some (l.count a) else none := by
  have h := stats_foldl_lookupD l [] a
  simpa [collectors.statsRes, lookupD] using h

theorem stats_keys_nodup (l : List String) :
    ((collectors.statsRes l).map Prod.fst).Nodup := by
  have h := nodup_keys_foldl_updD (fun v : String => v)
    (fun (_ : String) (o : Option Nat) => o.getD 0 + 1) l [] (by simp)
  simpa [collectors.statsRes] using h

theorem mem_keys_statsRes (l : List String) (a : String) :
    a ∈ (collectors.statsRes l).map Prod.fst ↔ a ∈ l := by
  rw [← lookupD_isSome_iff, statsRes_lookupD]
  by_cases h : a ∈ l <;> simp [h]

theorem statsRes_eq_map (l : List String) :
    collectors.statsRes l =
      ((collectors.statsRes l).map Prod.fst).map (fun k => (k, l.count k)) := by
  conv_lhs =>
    rw [assoc_eq_keys_map 0 (collectors.statsRes l) (stats_keys_nodup l)]
  apply List.map_congr_left
  intro a ha
  have hmem : a ∈ l := (mem_keys_statsRes l a).mp ha
  rw [statsRes_lookupD, if_pos hmem]
  rfl

theorem statsRes_perm_of_perm {l₁ l₂ : List String} (h : l₁.Perm l₂) :
    (collectors.statsRes l₁).Perm (collectors.statsRes l₂) := by
  have hkeys : ((collectors.statsRes l₁).map Prod.fst).Perm
      ((collectors.statsRes l₂).map Prod.fst) := by
    rw [List.perm_ext_iff_of_nodup (stats_keys_nodup l₁) (stats_keys_nodup l₂)]
    intro a
    rw [mem_keys_statsRes, mem_keys_statsRes]
    exact h.mem_iff
  have hcnt : ∀ a ∈ (collectors.statsRes l₂).map Prod.fst,
      (a, l₁.count a) = (a, l₂.count a) := fun a _ => by rw [h.count_eq]
  rw [statsRes_eq_map l₁, statsRes_eq_map l₂, ← List.map_congr_left hcnt]
  exact hkeys.map _

/-! Lemmas about the `nogpsdir` collector's accumulated dictionary. -/

theorem nogpsdir_foldl_lookupD (l : List (String × Bool)) :
    ∀ (acc : List (String × (Nat × Nat))) (d : String),
      lookupD d (l.foldl collectors.nogpsdirStep acc) =
        match lookupD d acc with
        | some c => some (c.1 + l.count (d, true), c.2 + l.count (d, false))
        | none =>
          if d ∈ l.map Prod.fst then
            some (l.count (d, true), l.count (d, false))
          else none := by
  induction l with
  | nil =>
    intro acc d
    cases h : lookupD d acc <;> simp [h]
  | cons r t ih =>
    obtain ⟨x, b⟩ := r
    intro acc d
    rw [List.foldl_cons, ih]
    simp only [collectors.nogpsdirStep]
    rw [lookupD_updD]
    by_cases hdx : d = x
    · subst hdx
      cases b <;> cases h : lookupD d acc <;>
        simp [h, List.count_cons, Prod.mk.injEq, beq_iff_eq] <;> omega
    · have hxd : ¬x = d := fun hh => hdx hh.symm
      cases h : lookupD d acc <;>
        simp [h, hdx, hxd, List.count_cons, Prod.mk.injEq, beq_iff_eq,
          List.mem_cons]

theorem nogpsdirRes_lookupD (l : List (String × Bool)) (d : String) :
    lookupD d (collectors.nogpsdirRes l) =
      if d ∈ l.map Prod.fst then
        some (l.count (d, true), l.count (d, false))
      else none := by
  have h := nogpsdir_foldl_lookupD l [] d
  simpa [collectors.nogpsdirRes, lookupD] using h

theorem nogpsdir_keys_nodup (l : List (String × Bool)) :
    ((collectors.nogpsdirRes l).map Prod.fst).Nodup := by
  have h := nodup_keys_foldl_updD (fun r : String × Bool => r.1)
    (fun (r : String × Bool) (o : Option (Nat × Nat)) =>
      let x := o.getD (0, 0)
      if r.2 then (x.1 + 1, x.2) else (x.1, x.2 + 1)) l [] (by simp)
  simpa [collectors.nogpsdirRes, collectors.nogpsdirStep] using h

/-! Lemmas about the `two_level` collector's histogram totals. -/

theorem innerTotal_updD (m : String) (d : List (String × Nat)) :
    innerTotal (updD m (fun y => y.getD 0 + 1) d) = innerTotal d + 1 := by
  induction d with
  | nil => simp [updD, innerTotal]
  | cons p t ih =>
    obtain ⟨x, y⟩ := p
    by_cases hxm : x = m
    · subst hxm
      simp [updD, innerTotal]
      omega
    · simp [updD, hxm, innerTotal] at ih ⊢
      omega

theorem totalCount_twoLevelStep (s : List (String × List (String × Nat)))
    (r : String × String) :
    totalCount (collectors.twoLevelStep s r) = totalCount s + 1 := by
  obtain ⟨mk, md⟩ := r
  induction s with
  | nil =>
    simp [collectors.twoLevelStep, updD, totalCount, innerTotal_updD,
      innerTotal]
  | cons p t ih =>
    obtain ⟨x, d⟩ := p
    by_cases hxm : x = mk
    · subst hxm
      simp [collectors.twoLevelStep, updD, totalCount, innerTotal_updD]
      omega
    · simp [collectors.twoLevelStep, updD, hxm, totalCount] at ih ⊢
      omega

theorem totalCount_foldl (l : List (String × String)) :
    ∀ acc, totalCount (l.foldl collectors.twoLevelStep acc) =
      totalCount acc + l.length := by
  induction l with
  | nil => intro acc; simp
  | cons r t ih =>
    intro acc
    rw [List.foldl_cons, ih, totalCount_twoLevelStep]
    simp only [List.length_cons]
    omega

/-! Lemmas about Python `strip` on both ends. -/

theorem dropWhile_append_of_all {α : Type} (p : α → Bool) (x r : List α)
    (hx : ∀ c ∈ x, p c = true) :
    List.dropWhile p (x ++ r) = List.dropWhile p r := by
  induction x with
  | nil => rfl
  | cons a s ih =>
    have ha : p a = true := hx a (List.mem_cons_self a s)
    simp only [List.cons_append, List.dropWhile_cons, ha, if_true, ite_true]
    exact ih (fun c hc => hx c (List.mem_cons_of_mem a hc))

theorem dropWhile_eq_nil_of_all {α : Type} (p : α → Bool) (x : List α)
    (hx : ∀ c ∈ x, p c = true) : List.dropWhile p x = [] := by
  have h := dropWhile_append_of_all p x [] hx
  simpa using h

theorem stripChars_sandwich (p : Char → Bool) (x y m : List Char)
    (hx : ∀ c ∈ x, p c = true) (hy : ∀ c ∈ y, p c = true)
    (hm1 : m.dropWhile p = m) (hm2 : m.reverse.dropWhile p = m.reverse) :
    stripChars p (x ++ m ++ y) = m := by
  unfold stripChars dropEnd
  rw [List.append_assoc, dropWhile_append_of_all p x (m ++ y) hx]
  rcases eq_or_ne m [] with rfl | hm
  · simp [dropWhile_eq_nil_of_all p y hy]
  · rw [List.dropWhile_append, hm1]
    have hne : m.isEmpty = false := by simpa [List.isEmpty_iff] using hm
    rw [hne]
    simp only [Bool.false_eq_true, if_false, ite_false]
    rw [List.reverse_append, dropWhile_append_of_all p y.reverse m.reverse
      (fun c hc => hy c (List.mem_reverse.mp hc)), hm2, List.reverse_reverse]

/-! Lemma about `rsplit` on a separator that does not occur. -/

theorem lastSplit_eq_none_of_not_mem (sep : Char) (l : List Char)
    (h : sep ∉ l) : workers.lastSplit sep l = none := by
  induction l with
  | nil => rfl
  | cons x xs ih =>
    have hx : ¬x = sep := fun hh => h (hh ▸ List.mem_cons_self x xs)
    have hxs : sep ∉ xs := fun hh => h (List.mem_cons_of_mem x hh)
    simp [workers.lastSplit, ih hxs, hx]

/-! Claim theorems: each settles one claim about the pipeline. -/

/-- C1, counterexample: the rendered report text is NOT identical across two
runs consuming the same multiset of WorkResults in different arrival orders:
`simple_list` and `key_value` both emit their lines in arrival/insertion
order, so a permuted arrival order permutes the rendered lines. -/
theorem simple_list_key_value_order_dependent :
    (["a", "b"] : List String).Perm ["b", "a"] ∧
    collectors.simple_list ["a", "b"] ≠ collectors.simple_list ["b", "a"] ∧
    ([("pa", "1"), ("pb", "2")] : List (String × String)).Perm
      [("pb", "2"), ("pa", "1")] ∧
    collectors.key_value [("pa", "1"), ("pb", "2")] ≠
      collectors.key_value [("pb", "2"), ("pa", "1")] := by
  refine ⟨by decide, by decide, by decide, by decide⟩

/-- C1, amended: `simple_list` preserves the multiset of rendered lines (the
non-empty results) under any permutation of result-arrival order, though the
line order itself follows arrival order, so the rendered text may differ. -/
theorem simple_list_lines_perm_invariant (l₁ l₂ : List String)
    (h : l₁.Perm l₂) :
    (collectors.simpleListLines l₁).Perm (collectors.simpleListLines l₂) :=
  h.filter _

/-- C1, witness for the amended statement at a concrete permuted pair. -/
theorem simple_list_lines_perm_invariant_wit :
    (collectors.simpleListLines ["a", "", "b"]).Perm
      (collectors.simpleListLines ["b", "a", ""]) :=
  simple_list_lines_perm_invariant ["a", "", "b"] ["b", "a", ""] (by decide)

/-- C2: `workers.usercomment` passes an already-decoded string through
unchanged; a byte value whose first 8 bytes equal one of the four markers is
decoded from byte 8 on; a byte value whose 8-byte head matches no marker is
decoded whole, head included; in particular the `ASCII`-marked "Hello" and
the short marker-less "Hello" both decode to "Hello". -/
theorem usercomment_decoding_ok :
    (∀ (f s : String) (dec : List Nat → String),
      workers.usercomment f (some (PyComment.str s)) dec = (f, s)) ∧
    (∀ (f : String) (b : List Nat) (dec : List Nat → String),
      b.take 8 ∈ workers.usercomment_encoding_keys →
        workers.usercomment f (some (PyComment.bytes b)) dec =
          (f, dec (b.drop 8))) ∧
    (∀ (f : String) (b : List Nat) (dec : List Nat → String),
      b.take 8 ∉ workers.usercomment_encoding_keys →
        workers.usercomment f (some (PyComment.bytes b)) dec = (f, dec b)) ∧
    workers.usercomment "f.jpg"
      (some (PyComment.bytes
        [0x41, 0x53, 0x43, 0x49, 0x49, 0, 0, 0, 72, 101, 108, 108, 111]))
      workers.asciiDecode = ("f.jpg", "Hello") ∧
    workers.usercomment "f.jpg" (some (PyComment.bytes [72, 101, 108, 108, 111]))
      workers.asciiDecode = ("f.jpg", "Hello") := by
  refine ⟨fun f s dec => rfl, fun f b dec hb => ?_, fun f b dec hb => ?_,
    by decide, by decide⟩
  · simp [workers.usercomment, hb]
  · simp [workers.usercomment, hb]

/-- C2, witness: both byte branches at concrete inputs. -/
theorem usercomment_decoding_wit :
    workers.usercomment "w.jpg"
      (some (PyComment.bytes [0, 0, 0, 0, 0, 0, 0, 0, 65]))
      workers.asciiDecode = ("w.jpg", "A") ∧
    workers.usercomment "w.jpg" (some (PyComment.bytes [66, 67]))
      workers.asciiDecode = ("w.jpg", "BC") := by
  constructor
  · exact usercomment_decoding_ok.2.1 "w.jpg" [0, 0, 0, 0, 0, 0, 0, 0, 65]
      workers.asciiDecode (by decide)
  · exact usercomment_decoding_ok.2.2.1 "w.jpg" [66, 67]
      workers.asciiDecode (by decide)

/-- C3, counterexample: the `stats` rendering is NOT character-for-character
invariant under permutation of completion order: two distinct values with
tied counts are rendered in first-arrival order (the stable sort preserves
dict insertion order), not in string order of the value. -/
theorem stats_text_order_dependent :
    (["a", "b"] : List String).Perm ["b", "a"] ∧
    collectors.stats ["a", "b"] ≠ collectors.stats ["b", "a"] := by
  refine ⟨by decide, by decide⟩

/-- C3, amended: the multiset of rendered `stats` lines — one line per
distinct value with its frequency count — is invariant under permutation of
completion order; only the relative order of count-tied lines can change. -/
theorem stats_lines_perm_invariant (l₁ l₂ : List String) (h : l₁.Perm l₂) :
    (collectors.statsLines l₁).Perm (collectors.statsLines l₂) := by
  have hres := statsRes_perm_of_perm h
  have hsorted : (collectors.statsSorted l₁).Perm (collectors.statsSorted l₂) :=
    ((pySorted_perm _ _).trans hres).trans (pySorted_perm _ _).symm
  exact hsorted.map _

/-- C3, witness for the amended statement at a concrete permuted pair. -/
theorem stats_lines_perm_invariant_wit :
    (collectors.statsLines ["a", "b", "a"]).Perm
      (collectors.statsLines ["b", "a", "a"]) :=
  stats_lines_perm_invariant ["a", "b", "a"] ["b", "a", "a"] (by decide)

/-- C4: `workers.nocam` returns the file's path exactly when the Make tag or
the Model tag is absent or has the empty value, and the empty string ("has
both") exactly when both tags are present with non-empty values. -/
theorem nocam_flags_missing_or_empty (f : String) (make model : Option String)
    (hf : f ≠ "") :
    (workers.nocam f make model = f ↔
      (make = none ∨ make = some "" ∨ model = none ∨ model = some "")) ∧
    (workers.nocam f make model = "" ↔
      ((∃ s, make = some s ∧ s ≠ "") ∧ (∃ s, model = some s ∧ s ≠ ""))) := by
  have hf2 : ¬("" = f) := fun hh => hf hh.symm
  cases make with
  | none => simp [workers.nocam, pyFalsy, hf, hf2]
  | some a =>
    cases model with
    | none => simp [workers.nocam, pyFalsy, hf, hf2]
    | some b =>
      by_cases ha : a = "" <;> by_cases hb : b = "" <;>
        simp [workers.nocam, pyFalsy, ha, hb, hf, hf2]

/-- C4, witness: an absent Make flags the file. -/
theorem nocam_flags_missing_or_empty_wit :
    workers.nocam "/d/p.jpg" none (some "Canon") = "/d/p.jpg" :=
  (nocam_flags_missing_or_empty "/d/p.jpg" none (some "Canon")
    (by decide)).1.mpr (Or.inl rfl)

/-- C5, counterexample: the claimed normalization would remove embedded NUL
characters, but `workers.cams` returns a Make value with an interior NUL
unchanged, NUL still present. -/
theorem cams_keeps_embedded_nul :
    (workers.cams (some "A\x00B") none).1 = "A\x00B" ∧
    '\x00' ∈ ("A\x00B" : String).toList := by
  refine ⟨by decide, by decide⟩

/-- C5, amended: `workers.cams` defaults an absent Make/Model to "<UNDEF>"
and, for a present value, removes leading and trailing whitespace and then
leading and trailing NUL characters only; the interior of the value,
embedded NULs included, is kept verbatim. -/
theorem cams_trims_ends_only (model : Option String) (x y n₁ n₂ m : List Char)
    (hx : ∀ c ∈ x, pyIsSpace c = true) (hy : ∀ c ∈ y, pyIsSpace c = true)
    (h1 : (n₁ ++ m ++ n₂).dropWhile pyIsSpace = n₁ ++ m ++ n₂)
    (h2 : (n₁ ++ m ++ n₂).reverse.dropWhile pyIsSpace = (n₁ ++ m ++ n₂).reverse)
    (hn₁ : ∀ c ∈ n₁, isNulChar c = true) (hn₂ : ∀ c ∈ n₂, isNulChar c = true)
    (hm1 : m.dropWhile isNulChar = m)
    (hm2 : m.reverse.dropWhile isNulChar = m.reverse) :
    (workers.cams (some (String.mk (x ++ (n₁ ++ m ++ n₂) ++ y))) model).1 =
      String.mk m ∧
    (workers.cams none model).1 = "<UNDEF>" := by
  constructor
  · have hlist : stripChars isNulChar (stripChars pyIsSpace
        (String.mk (x ++ (n₁ ++ m ++ n₂) ++ y)).toList) = m := by
      have h0 : (String.mk (x ++ (n₁ ++ m ++ n₂) ++ y)).toList =
          x ++ (n₁ ++ m ++ n₂) ++ y := rfl
      rw [h0, stripChars_sandwich pyIsSpace x y (n₁ ++ m ++ n₂) hx hy h1 h2,
        stripChars_sandwich isNulChar n₁ n₂ m hn₁ hn₂ hm1 hm2]
    show String.mk (stripChars isNulChar (stripChars pyIsSpace
      (String.mk (x ++ (n₁ ++ m ++ n₂) ++ y)).toList)) = String.mk m
    rw [hlist]
  · show stripWsNul "<UNDEF>" = "<UNDEF>"
    decide

/-- C5, witness: a concrete value with surrounding junk and an embedded NUL. -/
theorem cams_trims_ends_only_wit :
    (workers.cams (some " A\x00B\x00") none).1 = "A\x00B" :=
  (cams_trims_ends_only none [' '] [] [] ['\x00'] ['A', '\x00', 'B']
    (by decide) (by decide) (by decide) (by decide) (by decide) (by decide)
    (by decide) (by decide)).1

/-- C6: the grand total of all (maker, model) cell counts of the `cams`
report's two-level histogram equals the number of consumed WorkResults —
each sieved file's result increments exactly one cell by exactly one. -/
theorem cams_total_count_eq_length (l : List (String × String)) :
    totalCount (collectors.twoLevelStat l) = l.length := by
  have h := totalCount_foldl l []
  simpa [collectors.twoLevelStat, totalCount] using h

/-- C7: `nogpsdir` counts, per directory, the no-GPS and has-GPS files; a
directory is rendered exactly when its no-GPS count is positive; the
rendered items are sorted ascending by no-GPS count; and a directory with 3
files of which 2 lack GPS renders with no-GPS count 2 and has-GPS count 1. -/
theorem nogpsdir_report_ok (l : List (String × Bool)) (d : String)
    (t f : Nat) :
    (lookupD d (collectors.nogpsdirRes l) =
      if d ∈ l.map Prod.fst then
        some (l.count (d, true), l.count (d, false))
      else none) ∧
    ((d, (t, f)) ∈ collectors.nogpsdirItems l ↔
      (d ∈ l.map Prod.fst ∧ t = l.count (d, true) ∧ f = l.count (d, false) ∧
        0 < t)) ∧
    (collectors.nogpsdirItems l).Pairwise (fun a b => a.2.1 ≤ b.2.1) ∧
    collectors.nogpsdir [("/d", true), ("/d", true), ("/d", false)] =
      "  2 |   1 | /d" := by
  refine ⟨nogpsdirRes_lookupD l d, ⟨?_, ?_⟩, ?_, by decide⟩
  · intro hmem
    have hflt := List.mem_filter.mp hmem
    have hres : (d, (t, f)) ∈ collectors.nogpsdirRes l :=
      (pySorted_perm _ _).mem_iff.mp hflt.1
    have hlook : lookupD d (collectors.nogpsdirRes l) = some (t, f) :=
      lookupD_eq_of_mem_nodup hres (nogpsdir_keys_nodup l)
    have hpos : 0 < t := by simpa using hflt.2
    by_cases hd : d ∈ l.map Prod.fst
    · rw [nogpsdirRes_lookupD l d, if_pos hd] at hlook
      have := Option.some.injEq .. ▸ hlook
      refine ⟨hd, ?_, ?_, hpos⟩
      · exact (congrArg Prod.fst (Option.some.inj hlook)).symm
      · exact (congrArg Prod.snd (Option.some.inj hlook)).symm
    · rw [nogpsdirRes_lookupD l d, if_neg hd] at hlook
      cases hlook
  · rintro ⟨hd, rfl, rfl, hpos⟩
    have hlook : lookupD d (collectors.nogpsdirRes l) =
        some (l.count (d, true), l.count (d, false)) := by
      rw [nogpsdirRes_lookupD l d, if_pos hd]
    have hres := mem_of_lookupD_eq hlook
    refine List.mem_filter.mpr ⟨(pySorted_perm _ _).mem_iff.mpr hres, ?_⟩
    simpa using hpos
  · have htot : ∀ a b : String × (Nat × Nat),
        (decide (a.2.1 ≤ b.2.1) || decide (b.2.1 ≤ a.2.1)) = true := by
      intro a b
      rcases Nat.le_total a.2.1 b.2.1 with h | h <;> simp [h]
    have htr : ∀ a b c : String × (Nat × Nat),
        decide (a.2.1 ≤ b.2.1) = true → decide (b.2.1 ≤ c.2.1) = true →
          decide (a.2.1 ≤ c.2.1) = true := by
      intro a b c hab hbc
      simp at hab hbc ⊢
      omega
    exact List.Pairwise.filter _
      ((pySorted_pairwise htot htr (collectors.nogpsdirRes l)).imp
        (fun h => of_decide_eq_true h))

/-- C8: when any per-file task fails, the collector's drain loop re-raises
that task's error instead of completing, and `main`'s print never runs: the
run produces no (partial) report on standard output. -/
theorem failed_task_aborts_run {σ α ε : Type} (step : σ → α → σ) (init : σ)
    (render : σ → String) (tasks : List (Except ε α)) (e : ε)
    (h : Except.error e ∈ tasks) :
    (∃ e', drainE step init tasks = Except.error e') ∧
    mainOutput step init render tasks = none := by
  have key : ∀ (ts : List (Except ε α)), Except.error e ∈ ts →
      ∀ ini : σ, ∃ e', drainE step ini ts = Except.error e' := by
    intro ts
    induction ts with
    | nil => intro hmem ini; simp at hmem
    | cons tk tr ih =>
      intro hmem ini
      cases tk with
      | error e2 => exact ⟨e2, rfl⟩
      | ok a =>
        have hmem2 : Except.error e ∈ tr := by
          rcases List.mem_cons.mp hmem with heq | hm
          · exact Except.noConfusion heq
          · exact hm
        exact ih hmem2 (step ini a)
  obtain ⟨e', he'⟩ := key tasks h init
  exact ⟨⟨e', he'⟩, by simp [mainOutput, he', Except.map]⟩

/-- C8, witness: a failed middle task yields no printed output. -/
theorem failed_task_aborts_run_wit :
    mainOutput (fun (acc : List String) (f : String) => acc ++ [f]) []
      (String.intercalate "\n")
      [Except.ok "a", Except.error "boom", Except.ok "c"] = none :=
  (failed_task_aborts_run (fun acc f => acc ++ [f]) [] (String.intercalate "\n")
    [Except.ok "a", Except.error "boom", Except.ok "c"] "boom" (by simp)).2

/-- C9: an enumerated path containing any exclusion substring gets no task; a
non-excluded path passing the sieve gets exactly as many tasks as it is
enumerated (one for a single enumeration); scanning /root/skip/a.jpg and
/root/keep/b.jpg with exclusion "skip" tasks only b.jpg. -/
theorem exclusion_filter_ok (paths exclude : List String)
    (sieveF : String → Bool) (ff : String) :
    (exclude.any (fun x => pyIn x ff) = true →
      ff ∉ walkerTasks paths exclude sieveF) ∧
    (exclude.any (fun x => pyIn x ff) = false → sieveF ff = true →
      (walkerTasks paths exclude sieveF).count ff = paths.count ff) ∧
    walkerTasks ["/root/skip/a.jpg", "/root/keep/b.jpg"] ["skip"]
      (sieve.img true) = ["/root/keep/b.jpg"] := by
  refine ⟨?_, ?_, by decide⟩
  · intro hex hmem
    have hp := (List.mem_filter.mp hmem).2
    simp [hex] at hp
  · intro hex hsv
    unfold walkerTasks
    apply List.count_filter
    simp [hex, hsv]

/-- C9, witness: the excluded path is absent and the kept path is tasked
once. -/
theorem exclusion_filter_ok_wit :
    "/root/skip/a.jpg" ∉ walkerTasks ["/root/skip/a.jpg", "/root/keep/b.jpg"]
      ["skip"] (sieve.img true) ∧
    (walkerTasks ["/root/keep/b.jpg"] ["skip"]
      (sieve.img true)).count "/root/keep/b.jpg" =
      (["/root/keep/b.jpg"] : List String).count "/root/keep/b.jpg" := by
  constructor
  · exact (exclusion_filter_ok ["/root/skip/a.jpg", "/root/keep/b.jpg"]
      ["skip"] (sieve.img true) "/root/skip/a.jpg").1 (by decide)
  · exact (exclusion_filter_ok ["/root/keep/b.jpg"] ["skip"]
      (sieve.img true) "/root/keep/b.jpg").2.1 (by decide) (by decide)

/-- C10: the ftypes sieve accepts every path, yet `workers.file_ext` has no
element 1 to index — the modelled IndexError, `none` — whenever the path
contains no dot, while a dotted path yields its extension. -/
theorem file_ext_dotless_raises (f : String) :
    sieve.ftypes f = true ∧
    ('.' ∉ f.toList → workers.file_ext f = none) ∧
    workers.file_ext "a.b.jpg" = some "jpg" := by
  refine ⟨rfl, fun h => ?_, by decide⟩
  unfold workers.file_ext workers.pyRsplit1
  rw [lastSplit_eq_none_of_not_mem '.' f.toList h]
  rfl

/-- C10, witness: a dotless path has no extension result. -/
theorem file_ext_dotless_raises_wit :
    workers.file_ext "photodir" = none :=
  (file_ext_dotless_raises "photodir").2.1 (by decide)

end Ptool

